import Mathlib

set_option maxRecDepth 8192

/-!
Shallow embedding of the Wordle-solver core of the repository
(`wordle_utils.py`, `wordle_csp.py`, `main.py`, `wordle_gpt5_mini.py`).

Strings are modelled as Lean `String` (a list of characters); Python's
Unicode-aware character classes are modelled on the ASCII and Latin-1
ranges, which cover the alphabet the program manipulates.
-/

/-- Python whitespace test used by `str.strip`, modelled on the ASCII
whitespace characters (space, tab, newline, carriage return, vertical
tab U+000B, form feed U+000C). -/
def isPySpace (c : Char) : Bool :=
  c.toNat == 32 || c.toNat == 9 || c.toNat == 10 || c.toNat == 13 ||
    c.toNat == 11 || c.toNat == 12

/-- Python `str.lower` on a single character, modelled on the ASCII range
(`A`..`Z` map to `a`..`z`) and the Latin-1 range (U+00C0..U+00DE except
the multiplication sign U+00D7 map down by 32).  Other characters are
unchanged. -/
def pyLower (c : Char) : Char :=
  if 65 ≤ c.toNat ∧ c.toNat ≤ 90 then Char.ofNat (c.toNat + 32)
  else if 192 ≤ c.toNat ∧ c.toNat ≤ 222 ∧ c.toNat ≠ 215 then Char.ofNat (c.toNat + 32)
  else c

/-- Python `str.isalpha` on a single character, modelled on the ASCII and
Latin-1 ranges: ASCII letters, the micro sign U+00B5, the ordinal
indicators U+00AA and U+00BA, and the Latin-1 letters U+00C0..U+00FF
(excluding the multiplication sign U+00D7 and division sign U+00F7).
Python's `isalpha` tests the Unicode alphabetic property; this embedding
covers the code points relevant to the program. -/
def pyCharIsAlpha (c : Char) : Bool :=
  (97 ≤ c.toNat && c.toNat ≤ 122) || (65 ≤ c.toNat && c.toNat ≤ 90) ||
  (c.toNat == 170) || (c.toNat == 181) || (c.toNat == 186) ||
  (192 ≤ c.toNat && c.toNat ≤ 255 && !(c.toNat == 215) && !(c.toNat == 247))

/-- Python `str.strip` on a character list: drop whitespace from both ends. -/
def pyStrip (l : List Char) : List Char :=
  ((l.dropWhile isPySpace).reverse.dropWhile isPySpace).reverse

/-- `normalize_word` from `wordle_utils.py`: `word.strip().lower()`. -/
def normalize_word (w : String) : String :=
  String.mk ((pyStrip w.data).map pyLower)

/-- `is_valid_five_letter_word` from `wordle_utils.py`:
`isinstance(word, str) and len(word) == 5 and word.isalpha()`.
Python's `str.isalpha` is false on the empty string, hence the
non-emptiness conjunct (redundant given the length test, kept for
structural fidelity). -/
def is_valid_five_letter_word (w : String) : Bool :=
  w.length == 5 && (!w.data.isEmpty && w.data.all pyCharIsAlpha)

/-- Pass 1 of `compute_wordle_feedback` (greens), feedback side: position
`i` is `G` when `guess[i] == target[i]`, else still `B`.  The argument is
the position-wise zip of guess and target characters. -/
def greensFeedback (zp : List (Char × Char)) : List Char :=
  zp.map (fun p => if p.1 = p.2 then 'G' else 'B')

/-- Pass 1 of `compute_wordle_feedback` (greens), target side: the mutable
`target_chars` array after the green pass, `none` marking a consumed slot. -/
def greensTargetChars (zp : List (Char × Char)) : List (Option Char) :=
  zp.map (fun p => if p.1 = p.2 then none else some p.2)

/-- `target_chars[target_chars.index(ch)] = None`: consume the first
unconsumed slot holding `ch`. -/
def consumeFirst (ch : Char) : List (Option Char) → List (Option Char)
  | [] => []
  | x :: xs => if x = some ch then none :: xs else x :: consumeFirst ch xs

/-- Pass 2 of `compute_wordle_feedback` (yellows): walk the positions
(paired as `(feedback_i, guess_i)`) threading the remaining target pool;
a non-green position whose guess letter still occurs in the pool is
marked `Y` and consumes that occurrence. -/
def yellowsPass : List (Char × Char) → List (Option Char) → List Char
  | [], _ => []
  | p :: rest, tc =>
    if p.1 = 'G' then 'G' :: yellowsPass rest tc
    else if some p.2 ∈ tc then 'Y' :: yellowsPass rest (consumeFirst p.2 tc)
    else 'B' :: yellowsPass rest tc

/-- `compute_wordle_feedback` from `wordle_utils.py` (duplicated verbatim
in `main.py`): normalize both inputs, fail (`ValueError`, modelled as
`none`) unless both are valid five-letter words, then run the two-pass
green/yellow marking. -/
def compute_wordle_feedback (guess target : String) : Option String :=
  let g := normalize_word guess
  let t := normalize_word target
  if is_valid_five_letter_word g && is_valid_five_letter_word t then
    let zp := g.data.zip t.data
    some (String.mk (yellowsPass ((greensFeedback zp).zip g.data) (greensTargetChars zp)))
  else
    none

/-- `build_letter_freq` from `wordle_csp.py`, as a function from letters to
counts (a Python dict with default `0`): a valid word of the pool
contributes once per letter it contains, regardless of repeats. -/
def build_letter_freq (remaining : List String) : Char → Nat := fun ch =>
  (remaining.filter (fun w => is_valid_five_letter_word w && w.data.contains ch)).length

/-- `score_word` from `wordle_csp.py`: sum of the frequencies of the
distinct letters of the word (`set(word)`). -/
def score_word (w : String) (freq : Char → Nat) : Nat :=
  (w.data.dedup.map freq).sum

/-- The sort key of `best_next_guess`:
`(score_word(w, freq), len(set(w)), w)`. -/
def guessKey (freq : Char → Nat) (w : String) : Nat × Nat × String :=
  (score_word w freq, w.data.dedup.length, w)

/-- Python string comparison: lexicographic on code points, a proper
prefix comparing less. -/
def charListLt : List Char → List Char → Bool
  | _, [] => false
  | [], _ :: _ => true
  | a :: as, b :: bs =>
    if a.toNat < b.toNat then true
    else if b.toNat < a.toNat then false
    else charListLt as bs

/-- Lexicographic strict order on the sort keys, exactly Python tuple
comparison `(score, distinct, word) < (score, distinct, word)`. -/
def keyLtB (a b : Nat × Nat × String) : Bool :=
  decide (a.1 < b.1) ||
    (a.1 == b.1 && (decide (a.2.1 < b.2.1) ||
      (a.2.1 == b.2.1 && charListLt a.2.2.data b.2.2.data)))

/-- Python `max(candidates, key=k)`: left fold keeping the current
maximum, replacing it only on a strictly greater key (so the first
maximal element is returned). -/
def pyMaxKeyed (k : String → Nat × Nat × String) : List String → Option String
  | [] => none
  | x :: xs => some (xs.foldl (fun acc w => if keyLtB (k acc) (k w) then w else acc) x)

/-- The candidate list `best_next_guess` actually ranks: the untried valid
pool words, or (fallback) all valid pool words when every one was tried. -/
def bngCandidates (remaining tried : List String) : List String :=
  let c1 := remaining.filter (fun w => !tried.contains w && is_valid_five_letter_word w)
  if c1.isEmpty then remaining.filter (fun w => is_valid_five_letter_word w) else c1

/-- `best_next_guess` from `wordle_csp.py`: rank the candidates by
`(score, distinct-letter count, word)` under Python `max`.  The
`RuntimeError` raised on an empty candidate list is modelled as `none`. -/
def best_next_guess (remaining tried : List String) : Option String :=
  pyMaxKeyed (guessKey (build_letter_freq remaining)) (bngCandidates remaining tried)

/-- The consistency filter of `wordle_csp.py` line 136:
`[c for c in remaining if compute_wordle_feedback(guess, c) == pattern]`.
A `ValueError` escaping from `compute_wordle_feedback` aborts the whole
comprehension, modelled as `none`. -/
def filterConsistent (remaining : List String) (guess pattern : String) :
    Option (List String) :=
  match remaining with
  | [] => some []
  | c :: rest =>
    match compute_wordle_feedback guess c, filterConsistent rest guess pattern with
    | some p, some l => some (if p = pattern then c :: l else l)
    | _, _ => none

/-- The pool update of `wordle_csp.py` line 137:
`remaining = new_remaining if new_remaining else remaining`
(conservative fallback to the unchanged pool on an empty filter result). -/
def updateRemaining (remaining : List String) (guess pattern : String) :
    Option (List String) :=
  match filterConsistent remaining guess pattern with
  | some nr => some (if nr.isEmpty then remaining else nr)
  | none => none

/-- A decoded Python JSON value, as returned by `json.loads`. -/
inductive PyJson where
  | null
  | bool (b : Bool)
  | num (n : Int)
  | str (s : String)
  | arr (xs : List PyJson)
  | obj (kvs : List (String × PyJson))

/-- Python `str()` of a decoded JSON value.  The renderings of lists and
objects are abbreviated: Python always renders them with brackets or
braces, which can never pass the five-letter alphabetic validation, so
their exact contents are irrelevant to `parse_guess_from_json`. -/
def pyStr : PyJson → String
  | .null => "None"
  | .bool true => "True"
  | .bool false => "False"
  | .num n => toString n
  | .str s => s
  | .arr _ => "[...]"
  | .obj _ => "\x7b...\x7d"

/-- `data.get("guess", "")`: defined only on a decoded object (any other
value raises `AttributeError`, caught by the caller); a missing key
yields the empty string. -/
def pyGetGuess : PyJson → Except Unit PyJson
  | .obj kvs =>
    .ok (match kvs.lookup "guess" with
         | some v => v
         | none => .str "")
  | _ => .error ()

/-- `parse_guess_from_json` from `wordle_utils.py` (duplicated verbatim in
`main.py`), parameterised by the behaviour of the external `json.loads`
(`decode`; a raised exception is `Except.error`).  Note `content or ""`
is the identity on strings, so `decode` receives `content` itself.  Both
exception sources (`json.loads` and `.get` on a non-dict) are caught by
the `except` clause and mapped to the JSON error message. -/
def parse_guess_from_json (decode : String → Except Unit PyJson)
    (content : String) : Bool × String :=
  match decode content with
  | .error _ => (false, "Model did not return valid JSON with a guess field.")
  | .ok data =>
    match pyGetGuess data with
    | .error _ => (false, "Model did not return valid JSON with a guess field.")
    | .ok v =>
      let guess := normalize_word (pyStr v)
      if is_valid_five_letter_word guess then (true, guess)
      else (false, "Model did not return a valid 5-letter guess.")

/-- Terminal outcome of the externally-advised solve loop of `main.py`
(`wordle_command`) and `wordle_gpt5_mini.py` (identical logic):
`solved`/`exhausted` are the in-game outcomes, `selectorFailed` the
"ChatGPT failed to produce a valid guess" early return after the failed
parse retry, `apiError` the "API call failed" early return, and
`crashed` an uncaught `ValueError` from `compute_wordle_feedback`. -/
inductive SolveOutcome where
  | solved (attempt : Nat)
  | exhausted
  | selectorFailed
  | apiError
  | crashed
deriving DecidableEq

/-- The `for attempt in range(1, 7)` loop of `wordle_command` in `main.py`
(lines 159-250; `wordle_gpt5_mini.py` lines 92-181 is the same loop).
The external service is an oracle list of response strings, one per API
call, an exhausted list standing for a failed call; `fuel` counts the
remaining loop iterations (entry point: 6), and the returned list is the
final `guessed_words`.  Faithful to the source, the repeated-guess branch
(`continue`) recurses with `fuel` decremented, because `continue` inside
`for attempt in range(1, 7)` advances the range iterator. -/
def runAttempts (decode : String → Except Unit PyJson) (solution : String) :
    Nat → List String → List String → SolveOutcome × List String
  | 0, _, guessed => (.exhausted, guessed)
  | _ + 1, [], guessed => (.apiError, guessed)
  | fuel + 1, content :: rest, guessed =>
    let pr := parse_guess_from_json decode content
    if pr.1 then
      if pr.2 ∈ guessed then runAttempts decode solution fuel rest guessed
      else
        match compute_wordle_feedback pr.2 solution with
        | none => (.crashed, guessed ++ [pr.2])
        | some pattern =>
          if pattern = "GGGGG" then (.solved (6 - fuel), guessed ++ [pr.2])
          else runAttempts decode solution fuel rest (guessed ++ [pr.2])
    else
      match rest with
      | [] => (.apiError, guessed)
      | content2 :: rest2 =>
        let pr2 := parse_guess_from_json decode content2
        if pr2.1 then
          if pr2.2 ∈ guessed then runAttempts decode solution fuel rest2 guessed
          else
            match compute_wordle_feedback pr2.2 solution with
            | none => (.crashed, guessed ++ [pr2.2])
            | some pattern =>
              if pattern = "GGGGG" then (.solved (6 - fuel), guessed ++ [pr2.2])
              else runAttempts decode solution fuel rest2 (guessed ++ [pr2.2])
        else (.selectorFailed, guessed)

/-- Entry point of the solve loop: six attempts, no guesses yet. -/
def wordle_command (decode : String → Except Unit PyJson) (solution : String)
    (responses : List String) : SolveOutcome × List String :=
  runAttempts decode solution 6 responses []

/-- Oracle for `json.loads` that decodes the fixed reply
`(a JSON object with guess field "crane")` and fails on anything else. -/
def decodeCraneOnly : String → Except Unit PyJson := fun s =>
  if s = "crane-reply" then .ok (.obj [("guess", .str "crane")]) else .error ()

/-- Oracle for `json.loads` that always raises. -/
def decodeErrorAlways : String → Except Unit PyJson := fun _ => .error ()

/-- Oracle for `json.loads` that decodes every reply to a JSON object
whose guess field is the padded upper-case string " HELLO ". -/
def decodeSpacedHello : String → Except Unit PyJson := fun _ =>
  .ok (.obj [("guess", .str " HELLO ")])

/-- Number of positions whose feedback mark is Green or Yellow and whose
guess letter is `ch`: the per-letter Green+Yellow tally of a feedback
row against its guess. -/
def gyCount (ch : Char) : List Char → List Char → Nat
  | f :: fs, g :: gs => (if g = ch ∧ (f = 'G' ∨ f = 'Y') then 1 else 0) + gyCount ch fs gs
  | _, _ => 0

/-- Number of unconsumed slots holding `ch` in a target-characters array. -/
def countOpt (ch : Char) : List (Option Char) → Nat
  | [] => 0
  | x :: xs => (if x = some ch then 1 else 0) + countOpt ch xs

/-- Number of positions marked Green (after pass 1) whose guess letter is
`ch`, over the `(feedback, guess-letter)` pairs fed to the yellow pass. -/
def gExact (ch : Char) : List (Char × Char) → Nat
  | [] => 0
  | p :: rest => (if p.1 = 'G' ∧ p.2 = ch then 1 else 0) + gExact ch rest

/-- The `(feedback, guess-letter)` pair list fed to the yellow pass,
expressed directly over the guess/target zip. -/
def yellowInput (zp : List (Char × Char)) : List (Char × Char) :=
  zp.map (fun p => ((if p.1 = p.2 then 'G' else 'B'), p.1))

/-- ASCII-letter test, written from the specification's words ("every
character is an ASCII letter"), for comparison with the source's
`isalpha`-based validation. -/
def isAsciiLetter (c : Char) : Bool :=
  (65 ≤ c.toNat && c.toNat ≤ 90) || (97 ≤ c.toNat && c.toNat ≤ 122)

/-- A word retained by the consistency filter was already in the pool. -/
theorem filterConsistent_subset (remaining : List String) (guess pattern : String)
    (l : List String) (h : filterConsistent remaining guess pattern = some l) :
    ∀ x ∈ l, x ∈ remaining := by
  induction remaining generalizing l with
  | nil =>
    simp only [filterConsistent, Option.some.injEq] at h
    subst h
    simp
  | cons c rest ih =>
    simp only [filterConsistent] at h
    cases hc : compute_wordle_feedback guess c with
    | none => rw [hc] at h; cases h
    | some p =>
      cases hr : filterConsistent rest guess pattern with
      | none => rw [hc, hr] at h; cases h
      | some l2 =>
        rw [hc, hr] at h
        simp only [Option.some.injEq] at h
        subst h
        intro x hx
        by_cases hp : p = pattern
        · simp only [hp, if_pos rfl] at hx
          rcases List.mem_cons.mp hx with h1 | h2
          · exact List.mem_cons.mpr (Or.inl h1)
          · exact List.mem_cons.mpr (Or.inr (ih l2 hr x h2))
        · rw [if_neg hp] at hx
          exact List.mem_cons.mpr (Or.inr (ih l2 hr x hx))

/-- The consistency filter succeeds whenever every feedback computation in
it succeeds. -/
theorem filterConsistent_isSome (remaining : List String) (guess pattern : String)
    (h : ∀ c ∈ remaining, (compute_wordle_feedback guess c).isSome = true) :
    (filterConsistent remaining guess pattern).isSome = true := by
  induction remaining with
  | nil => rfl
  | cons c rest ih =>
    have hc := h c (List.mem_cons_self c rest)
    have hr := ih (fun d hd => h d (List.mem_cons.mpr (Or.inr hd)))
    simp only [filterConsistent]
    cases hcc : compute_wordle_feedback guess c with
    | none => rw [hcc] at hc; cases hc
    | some p =>
      cases hrr : filterConsistent rest guess pattern with
      | none => rw [hrr] at hr; cases hr
      | some l2 => rfl

/-- Any word of the pool whose feedback equals the pattern is retained by
the consistency filter; in particular a successful filter keeps it. -/
theorem filterConsistent_mem (remaining : List String) (guess pattern target : String)
    (l : List String)
    (hl : filterConsistent remaining guess pattern = some l)
    (hmem : target ∈ remaining)
    (hpat : compute_wordle_feedback guess target = some pattern) :
    target ∈ l := by
  induction remaining generalizing l with
  | nil => cases hmem
  | cons c rest ih =>
    simp only [filterConsistent] at hl
    cases hc : compute_wordle_feedback guess c with
    | none => rw [hc] at hl; cases hl
    | some p =>
      cases hr : filterConsistent rest guess pattern with
      | none => rw [hc, hr] at hl; cases hl
      | some l2 =>
        rw [hc, hr] at hl
        simp only [Option.some.injEq] at hl
        subst hl
        rcases List.mem_cons.mp hmem with h1 | h2
        · subst h1
          rw [hc] at hpat
          simp only [Option.some.injEq] at hpat
          subst hpat
          simp
        · have := ih l2 hr h2
          by_cases hp : p = pattern
          · simp [hp, this]
          · simpa [hp] using this

/-- `compute_wordle_feedback` succeeds on two words that normalize to
valid five-letter words. -/
theorem compute_isSome_of_valid (g t : String)
    (hg : is_valid_five_letter_word (normalize_word g) = true)
    (ht : is_valid_five_letter_word (normalize_word t) = true) :
    (compute_wordle_feedback g t).isSome = true := by
  simp [compute_wordle_feedback, hg, ht]

/-- A successful `compute_wordle_feedback` run had two valid inputs. -/
theorem compute_valid_of_some (g t p : String)
    (h : compute_wordle_feedback g t = some p) :
    is_valid_five_letter_word (normalize_word g) = true ∧
      is_valid_five_letter_word (normalize_word t) = true := by
  by_cases hg : is_valid_five_letter_word (normalize_word g) = true
  · by_cases ht : is_valid_five_letter_word (normalize_word t) = true
    · exact ⟨hg, ht⟩
    · rw [Bool.not_eq_true] at ht
      simp [compute_wordle_feedback, ht] at h
  · rw [Bool.not_eq_true] at hg
    simp [compute_wordle_feedback, hg] at h

/-- C4: for every pool of valid words, every guess and every target in the
pool, filtering the pool by the pair `(guess, computeFeedback(guess,
target))` succeeds and retains the target in the result. -/
theorem c4_filter_retains_target (pool : List String) (guess target pat : String)
    (hmem : target ∈ pool)
    (hvalid : ∀ c ∈ pool, is_valid_five_letter_word (normalize_word c) = true)
    (hpat : compute_wordle_feedback guess target = some pat) :
    (filterConsistent pool guess pat).isSome = true ∧
      ∀ l, filterConsistent pool guess pat = some l → target ∈ l := by
  have hgv := (compute_valid_of_some guess target pat hpat).1
  refine ⟨filterConsistent_isSome pool guess pat
    (fun c hc => compute_isSome_of_valid guess c hgv (hvalid c hc)), ?_⟩
  intro l hl
  exact filterConsistent_mem pool guess pat target l hl hmem hpat

theorem c4_filter_retains_target_witness :
    (filterConsistent ["crane", "slime"] "crane" "GGGGG").isSome = true ∧
      "crane" ∈ ["crane"] := by
  have h := c4_filter_retains_target ["crane", "slime"] "crane" "crane" "GGGGG"
    (by decide) (by decide) (by decide)
  exact ⟨h.1, h.2 ["crane"] (by decide)⟩

/-- C5: one round of the pool update never grows the pool: the updated
pool is a subset of the previous one, and when the filter result is empty
it is exactly the unchanged previous pool. -/
theorem c5_pool_never_grows (remaining : List String) (guess pattern : String)
    (r2 : List String)
    (h : updateRemaining remaining guess pattern = some r2) :
    (∀ x ∈ r2, x ∈ remaining) ∧
      (filterConsistent remaining guess pattern = some [] → r2 = remaining) := by
  unfold updateRemaining at h
  cases hf : filterConsistent remaining guess pattern with
  | none => rw [hf] at h; cases h
  | some nr =>
    rw [hf] at h
    simp only [Option.some.injEq] at h
    subst h
    constructor
    · intro x hx
      by_cases hnr : nr.isEmpty = true
      · rwa [if_pos hnr] at hx
      · rw [if_neg hnr] at hx
        exact filterConsistent_subset remaining guess pattern nr hf x hx
    · intro he
      simp only [Option.some.injEq] at he
      subst he
      rfl

theorem c5_pool_never_grows_witness :
    "crane" ∈ ["crane"] ∧ (["crane"] : List String) = ["crane"] := by
  have h := c5_pool_never_grows ["crane"] "crane" "BBBBB" ["crane"] (by decide)
  exact ⟨h.1 "crane" (by decide), h.2 (by decide)⟩

/-- `pyMaxKeyed` returns nothing exactly on the empty candidate list. -/
theorem pyMaxKeyed_eq_none_iff (k : String → Nat × Nat × String) (l : List String) :
    pyMaxKeyed k l = none ↔ l = [] := by
  cases l <;> simp [pyMaxKeyed]

/-- C6: over a pool of valid words, `best_next_guess` fails exactly when
the pool is empty; in particular the full-pool fallback produces a guess
even when every pool word has been tried. -/
theorem c6_guess_iff_empty_pool (remaining tried : List String)
    (h : ∀ w ∈ remaining, is_valid_five_letter_word w = true) :
    best_next_guess remaining tried = none ↔ remaining = [] := by
  rw [best_next_guess, pyMaxKeyed_eq_none_iff]
  have hfull : remaining.filter (fun w => is_valid_five_letter_word w) = remaining :=
    List.filter_eq_self.mpr h
  constructor
  · intro hb
    by_contra hne
    unfold bngCandidates at hb
    by_cases h1 :
        (remaining.filter (fun w => !tried.contains w && is_valid_five_letter_word w)).isEmpty = true
    · rw [if_pos h1, hfull] at hb
      exact hne hb
    · rw [if_neg h1] at hb
      rw [hb] at h1
      exact h1 rfl
  · intro he
    subst he
    rfl

theorem c6_guess_iff_empty_pool_witness :
    (best_next_guess ["abcde"] ["abcde"] = none ↔ (["abcde"] : List String) = []) :=
  c6_guess_iff_empty_pool ["abcde"] ["abcde"] (by decide)

/-- C3 (the code deviates): with the target `apple` and the external
service replying with the same well-formed guess `crane` on all seven
calls, the solve loop terminates `exhausted` with `crane` as the only
word ever scored: the five repeated-guess rounds each consumed one of the
six attempts, because `continue` inside `for attempt in range(1, 7)`
advances the attempt counter. -/
theorem c3_repeat_consumes_attempt :
    wordle_command decodeCraneOnly "apple" (List.replicate 7 "crane-reply") =
      (SolveOutcome.exhausted, ["crane"]) := by decide

/-- C8: whenever a response fails guess parsing and the retried response
fails again, the solve loop returns the dedicated selector-failure
outcome (with the guessed list unchanged), which is distinct from the
exhausted-attempts outcome. -/
theorem c8_selector_failure (decode : String → Except Unit PyJson)
    (solution : String) (fuel : Nat) (r1 r2 : String) (rest guessed : List String)
    (h1 : (parse_guess_from_json decode r1).1 = false)
    (h2 : (parse_guess_from_json decode r2).1 = false) :
    runAttempts decode solution (fuel + 1) (r1 :: r2 :: rest) guessed =
      (SolveOutcome.selectorFailed, guessed) ∧
      SolveOutcome.selectorFailed ≠ SolveOutcome.exhausted := by
  refine ⟨?_, by simp⟩
  simp only [runAttempts, h1, h2, Bool.false_eq_true, if_false]

theorem c8_selector_failure_witness :
    runAttempts decodeErrorAlways "apple" 6 ["bad", "bad"] [] =
      (SolveOutcome.selectorFailed, []) ∧
      SolveOutcome.selectorFailed ≠ SolveOutcome.exhausted :=
  c8_selector_failure decodeErrorAlways "apple" 5 "bad" "bad" [] [] (by decide) (by decide)

/-- C7 counterexample: `héllo` (five characters, all alphabetic for
Python's `isalpha`, but `é` is not an ASCII letter) is accepted by
`is_valid_five_letter_word`, refuting "length 5 and every character an
ASCII letter". -/
theorem c7_counterexample :
    is_valid_five_letter_word "héllo" = true ∧
      ¬ ("héllo".length = 5 ∧ ∀ c ∈ "héllo".data, isAsciiLetter c = true) := by
  decide

/-- C7 amended: `is_valid_five_letter_word s` is true iff `s` has length
exactly 5 and every character of `s` is alphabetic in Python's
`str.isalpha` sense (which also accepts non-ASCII letters). -/
theorem c7_valid_iff_alpha (s : String) :
    is_valid_five_letter_word s = true ↔
      (s.length = 5 ∧ ∀ c ∈ s.data, pyCharIsAlpha c = true) := by
  obtain ⟨l⟩ := s
  simp only [is_valid_five_letter_word, String.length, Bool.and_eq_true, beq_iff_eq,
    Bool.not_eq_true', List.all_eq_true]
  constructor
  · rintro ⟨h5, _, hall⟩
    exact ⟨h5, hall⟩
  · rintro ⟨h5, hall⟩
    refine ⟨h5, ?_, hall⟩
    cases l with
    | nil => cases h5
    | cons a as => rfl

/-- Head/tail characterisation of the Python string order. -/
theorem charListLt_cons_iff (a b : Char) (as bs : List Char) :
    charListLt (a :: as) (b :: bs) = true ↔
      a.toNat < b.toNat ∨ (a.toNat = b.toNat ∧ charListLt as bs = true) := by
  simp only [charListLt]
  by_cases h1 : a.toNat < b.toNat
  · simp [h1]
  · by_cases h2 : b.toNat < a.toNat
    · simp only [if_neg h1, if_pos h2]
      constructor
      · intro h; cases h
      · rintro (h | ⟨h, -⟩) <;> omega
    · have he : a.toNat = b.toNat := by omega
      simp [h1, h2, he]

theorem charListLt_irrefl (a : List Char) : charListLt a a = false := by
  induction a with
  | nil => rfl
  | cons c cs ih => simp [charListLt, ih]

theorem charListLt_trans (a b c : List Char) (h1 : charListLt a b = true)
    (h2 : charListLt b c = true) : charListLt a c = true := by
  induction a generalizing b c with
  | nil =>
    cases c with
    | nil =>
      cases b with
      | nil => exact h1
      | cons bh bt => simp [charListLt] at h2
    | cons ch ct => simp [charListLt]
  | cons ah as ih =>
    cases b with
    | nil => simp [charListLt] at h1
    | cons bh bt =>
      cases c with
      | nil => simp [charListLt] at h2
      | cons ch ct =>
        rw [charListLt_cons_iff] at h1 h2 ⊢
        rcases h1 with h1 | ⟨e1, h1⟩ <;> rcases h2 with h2 | ⟨e2, h2⟩
        · left; omega
        · left; omega
        · left; omega
        · right; exact ⟨by omega, ih bt ct h1 h2⟩

theorem charListLt_eq_or (a b : List Char) :
    charListLt a b = true ∨ a = b ∨ charListLt b a = true := by
  induction a generalizing b with
  | nil =>
    cases b with
    | nil => right; left; rfl
    | cons bh bt => left; simp [charListLt]
  | cons ah as ih =>
    cases b with
    | nil => right; right; simp [charListLt]
    | cons bh bt =>
      rcases Nat.lt_trichotomy ah.toNat bh.toNat with h | h | h
      · left; rw [charListLt_cons_iff]; exact Or.inl h
      · have hc : ah = bh := by
          have h2 := congrArg Char.ofNat h
          rwa [Char.ofNat_toNat, Char.ofNat_toNat] at h2
        rcases ih bt with h1 | h1 | h1
        · left; rw [charListLt_cons_iff]; exact Or.inr ⟨h, h1⟩
        · right; left; rw [hc, h1]
        · right; right; rw [charListLt_cons_iff]; exact Or.inr ⟨h.symm, h1⟩
      · right; right; rw [charListLt_cons_iff]; exact Or.inl h

/-- Propositional unfolding of the tuple-key order. -/
theorem keyLtB_iff (a b : Nat × Nat × String) :
    keyLtB a b = true ↔
      a.1 < b.1 ∨ (a.1 = b.1 ∧ (a.2.1 < b.2.1 ∨
        (a.2.1 = b.2.1 ∧ charListLt a.2.2.data b.2.2.data = true))) := by
  simp [keyLtB, Bool.or_eq_true, Bool.and_eq_true, decide_eq_true_eq, beq_iff_eq]

theorem keyLtB_irrefl (a : Nat × Nat × String) : keyLtB a a = false := by
  rw [Bool.eq_false_iff, Ne, keyLtB_iff]
  rintro (h | ⟨-, h | ⟨-, h⟩⟩)
  · omega
  · omega
  · rw [charListLt_irrefl] at h; cases h

theorem keyLtB_trans (a b c : Nat × Nat × String) (h1 : keyLtB a b = true)
    (h2 : keyLtB b c = true) : keyLtB a c = true := by
  rw [keyLtB_iff] at h1 h2 ⊢
  rcases h1 with h1 | ⟨e1, h1⟩ <;> rcases h2 with h2 | ⟨e2, h2⟩
  · left; omega
  · left; omega
  · left; omega
  · right
    refine ⟨by omega, ?_⟩
    rcases h1 with h1 | ⟨f1, h1⟩ <;> rcases h2 with h2 | ⟨f2, h2⟩
    · left; omega
    · left; omega
    · left; omega
    · right; exact ⟨by omega, charListLt_trans _ _ _ h1 h2⟩

theorem keyLtB_eq_or (a b : Nat × Nat × String) :
    keyLtB a b = true ∨ a = b ∨ keyLtB b a = true := by
  obtain ⟨a1, a2, a3⟩ := a
  obtain ⟨b1, b2, b3⟩ := b
  rcases Nat.lt_trichotomy a1 b1 with h | h | h
  · left; rw [keyLtB_iff]; left; exact h
  · rcases Nat.lt_trichotomy a2 b2 with h2 | h2 | h2
    · left; rw [keyLtB_iff]; right; exact ⟨h, Or.inl h2⟩
    · rcases charListLt_eq_or a3.data b3.data with h3 | h3 | h3
      · left; rw [keyLtB_iff]; right; exact ⟨h, Or.inr ⟨h2, h3⟩⟩
      · right; left
        have he : a3 = b3 := String.ext h3
        rw [h, h2, he]
      · right; right; rw [keyLtB_iff]; right; exact ⟨h.symm, Or.inr ⟨h2.symm, h3⟩⟩
    · right; right; rw [keyLtB_iff]; right; exact ⟨h.symm, Or.inl h2⟩
  · right; right; rw [keyLtB_iff]; left; exact h

/-- The left fold inside `pyMaxKeyed` returns a list member whose key no
other member strictly exceeds. -/
theorem pyMaxFold_spec (k : String → Nat × Nat × String) (xs : List String) :
    ∀ x : String,
      (xs.foldl (fun acc w => if keyLtB (k acc) (k w) then w else acc) x ∈ x :: xs) ∧
        ∀ v ∈ x :: xs,
          keyLtB (k (xs.foldl (fun acc w => if keyLtB (k acc) (k w) then w else acc) x))
            (k v) = false := by
  induction xs with
  | nil =>
    intro x
    refine ⟨by simp, ?_⟩
    intro v hv
    rw [List.mem_singleton] at hv
    rw [List.foldl_nil, hv]
    exact keyLtB_irrefl (k x)
  | cons w xs ih =>
    intro x
    simp only [List.foldl_cons]
    by_cases hxw : keyLtB (k x) (k w) = true
    · rw [if_pos hxw]
      obtain ⟨hmem, hge⟩ := ih w
      constructor
      · exact List.mem_cons.mpr (Or.inr hmem)
      · intro v hv
        rcases List.mem_cons.mp hv with hvx | hv2
        · subst hvx
          rw [Bool.eq_false_iff, Ne]
          intro hlt
          have hmw := hge w (List.mem_cons.mpr (Or.inl rfl))
          have h2 := keyLtB_trans _ _ _ hlt hxw
          rw [hmw] at h2
          cases h2
        · exact hge v hv2
    · rw [if_neg hxw]
      rw [Bool.not_eq_true] at hxw
      obtain ⟨hmem, hge⟩ := ih x
      constructor
      · rcases List.mem_cons.mp hmem with h | h
        · rw [h]; exact List.mem_cons.mpr (Or.inl rfl)
        · exact List.mem_cons.mpr (Or.inr (List.mem_cons.mpr (Or.inr h)))
      · intro v hv
        rcases List.mem_cons.mp hv with hvx | hv2
        · subst hvx
          exact hge v (List.mem_cons.mpr (Or.inl rfl))
        · rcases List.mem_cons.mp hv2 with hvw | hv3
          · subst hvw
            rw [Bool.eq_false_iff, Ne]
            intro hlt
            have hmx := hge x (List.mem_cons.mpr (Or.inl rfl))
            rcases keyLtB_eq_or
                (k (xs.foldl (fun acc u => if keyLtB (k acc) (k u) then u else acc) x))
                (k x) with hc | hc | hc
            · rw [hmx] at hc; cases hc
            · rw [hc] at hlt
              rw [hxw] at hlt
              cases hlt
            · have h2 := keyLtB_trans _ _ _ hc hlt
              rw [hxw] at h2
              cases h2
          · exact hge v (List.mem_cons.mpr (Or.inr hv3))

/-- A guess returned by `pyMaxKeyed` is a candidate whose key no candidate
strictly exceeds. -/
theorem pyMaxKeyed_spec (k : String → Nat × Nat × String) (l : List String) (w : String)
    (h : pyMaxKeyed k l = some w) :
    w ∈ l ∧ ∀ v ∈ l, keyLtB (k w) (k v) = false := by
  cases l with
  | nil => cases h
  | cons x xs =>
    simp only [pyMaxKeyed, Option.some.injEq] at h
    subst h
    exact pyMaxFold_spec k xs x

/-- C2 counterexample: on the pool `abcde`, `abcdf` (untried), the two
candidates tie on coverage score and distinct-letter count, and the
selector returns `abcdf`, the lexicographically greater word — not the
lexicographically smallest. -/
theorem c2_counterexample :
    best_next_guess ["abcde", "abcdf"] [] = some "abcdf" ∧
      score_word "abcde" (build_letter_freq ["abcde", "abcdf"]) =
        score_word "abcdf" (build_letter_freq ["abcde", "abcdf"]) ∧
      "abcde".data.dedup.length = "abcdf".data.dedup.length ∧
      charListLt "abcde".data "abcdf".data = true ∧
      "abcdf" ≠ "abcde" :=
  ⟨by decide, by decide, by decide, by decide, by decide⟩

/-- C2 amended: for every pool and tried set, a guess returned by the CSP
selector is a ranked candidate that strictly beats every other candidate
on the key (coverage score, then distinct-letter count, then
lexicographically greater word). -/
theorem c2_selector_maximal (remaining tried : List String) (w : String)
    (h : best_next_guess remaining tried = some w) :
    w ∈ bngCandidates remaining tried ∧
      ∀ v ∈ bngCandidates remaining tried, v ≠ w →
        score_word v (build_letter_freq remaining) <
            score_word w (build_letter_freq remaining) ∨
          (score_word v (build_letter_freq remaining) =
              score_word w (build_letter_freq remaining) ∧
            (v.data.dedup.length < w.data.dedup.length ∨
              (v.data.dedup.length = w.data.dedup.length ∧
                charListLt v.data w.data = true))) := by
  obtain ⟨hmem, hge⟩ := pyMaxKeyed_spec _ _ w h
  refine ⟨hmem, ?_⟩
  intro v hv hne
  have hvw : keyLtB (guessKey (build_letter_freq remaining) v)
      (guessKey (build_letter_freq remaining) w) = true := by
    rcases keyLtB_eq_or (guessKey (build_letter_freq remaining) v)
        (guessKey (build_letter_freq remaining) w) with h1 | h1 | h1
    · exact h1
    · exact absurd (congrArg (fun p => p.2.2) h1) hne
    · have h2 := hge v hv
      rw [h2] at h1
      cases h1
  rw [keyLtB_iff] at hvw
  simpa [guessKey] using hvw

theorem c2_selector_maximal_witness :
    "abcdf" ∈ bngCandidates ["abcde", "abcdf"] [] ∧
      (score_word "abcde" (build_letter_freq ["abcde", "abcdf"]) <
          score_word "abcdf" (build_letter_freq ["abcde", "abcdf"]) ∨
        (score_word "abcde" (build_letter_freq ["abcde", "abcdf"]) =
            score_word "abcdf" (build_letter_freq ["abcde", "abcdf"]) ∧
          ("abcde".data.dedup.length < "abcdf".data.dedup.length ∨
            ("abcde".data.dedup.length = "abcdf".data.dedup.length ∧
              charListLt "abcde".data "abcdf".data = true)))) := by
  have h := c2_selector_maximal ["abcde", "abcdf"] [] "abcdf" (by decide)
  exact ⟨h.1, h.2 "abcde" (by decide) (by decide)⟩

/-- A valid word has exactly five characters. -/
theorem valid_length (s : String) (h : is_valid_five_letter_word s = true) :
    s.data.length = 5 := by
  obtain ⟨l⟩ := s
  simp only [is_valid_five_letter_word, Bool.and_eq_true, beq_iff_eq, String.length] at h
  exact h.1

/-- Zipping a list with itself pairs each element with itself. -/
theorem zip_self_eq (a : List Char) : a.zip a = a.map (fun c => (c, c)) := by
  induction a with
  | nil => rfl
  | cons c cs ih => simp [List.zip_cons_cons, ih]

/-- The yellow pass leaves an all-green row untouched. -/
theorem yellowsPass_all_green (l : List (Char × Char)) (tc : List (Option Char))
    (h : ∀ p ∈ l, p.1 = 'G') : yellowsPass l tc = l.map (fun _ => 'G') := by
  induction l generalizing tc with
  | nil => rfl
  | cons p rest ih =>
    have hp := h p (List.mem_cons_self p rest)
    simp [yellowsPass, hp, ih tc (fun q hq => h q (List.mem_cons.mpr (Or.inr hq)))]

theorem greensFeedback_cons (p : Char × Char) (zp : List (Char × Char)) :
    greensFeedback (p :: zp) = (if p.1 = p.2 then 'G' else 'B') :: greensFeedback zp := rfl

theorem yellowInput_cons (p : Char × Char) (zp : List (Char × Char)) :
    yellowInput (p :: zp) =
      ((if p.1 = p.2 then 'G' else 'B'), p.1) :: yellowInput zp := rfl

theorem greensTargetChars_cons (p : Char × Char) (zp : List (Char × Char)) :
    greensTargetChars (p :: zp) =
      (if p.1 = p.2 then none else some p.2) :: greensTargetChars zp := rfl

/-- Rewriting the feedback/guess zip fed to the yellow pass as a single
map over the guess/target zip (the two lists have equal length). -/
theorem greens_zip_eq (g t : List Char) (h : g.length = t.length) :
    (greensFeedback (g.zip t)).zip g = yellowInput (g.zip t) := by
  induction g generalizing t with
  | nil => rfl
  | cons a gs ih =>
    cases t with
    | nil => simp at h
    | cons b ts =>
      simp only [List.length_cons] at h
      rw [List.zip_cons_cons, greensFeedback_cons, yellowInput_cons, List.zip_cons_cons,
        ih ts (by omega)]

/-- C9: feedback of any valid word against itself is the all-green row. -/
theorem c9_self_feedback_all_green (w : String)
    (h : is_valid_five_letter_word (normalize_word w) = true) :
    compute_wordle_feedback w w = some "GGGGG" := by
  unfold compute_wordle_feedback
  simp only [h, Bool.and_self, if_true]
  have hlen := valid_length _ h
  rw [greens_zip_eq _ _ rfl, zip_self_eq]
  have hyi : yellowInput ((normalize_word w).data.map (fun c => (c, c))) =
      (normalize_word w).data.map (fun c => ('G', c)) := by
    simp [yellowInput, List.map_map, Function.comp]
  rw [hyi]
  have hall : ∀ p ∈ (normalize_word w).data.map (fun c => ('G', c)), p.1 = 'G' := by
    intro p hp
    rw [List.mem_map] at hp
    obtain ⟨c, -, hc⟩ := hp
    rw [← hc]
  rw [yellowsPass_all_green _ _ hall]
  rw [List.map_map]
  have hrep : ((normalize_word w).data.map ((fun _ => 'G') ∘ fun c => ('G', c))) =
      List.replicate ((normalize_word w).data.length) 'G' := List.map_const' _ _
  rw [hrep, hlen]
  decide

theorem c9_self_feedback_all_green_witness :
    compute_wordle_feedback "crane" "crane" = some "GGGGG" :=
  c9_self_feedback_all_green "crane" (by decide)

/-- Consuming a present slot removes exactly one occurrence. -/
theorem countOpt_consumeFirst_self (ch : Char) (tc : List (Option Char))
    (h : some ch ∈ tc) :
    countOpt ch (consumeFirst ch tc) + 1 = countOpt ch tc := by
  induction tc with
  | nil => cases h
  | cons x xs ih =>
    by_cases hx : x = some ch
    · subst hx
      simp [consumeFirst, countOpt]
      omega
    · have hmem : some ch ∈ xs := by
        rcases List.mem_cons.mp h with h1 | h1
        · exact absurd h1.symm hx
        · exact h1
      have := ih hmem
      simp only [consumeFirst, if_neg hx, countOpt]
      omega

/-- Consuming a slot of a different letter does not change the count. -/
theorem countOpt_consumeFirst_ne (ch c : Char) (tc : List (Option Char))
    (h : ¬c = ch) :
    countOpt ch (consumeFirst c tc) = countOpt ch tc := by
  induction tc with
  | nil => rfl
  | cons x xs ih =>
    by_cases hx : x = some c
    · have hxch : ¬x = some ch := by
        rw [hx]
        intro e
        simp only [Option.some.injEq] at e
        exact h e
      simp [consumeFirst, countOpt, hx, hxch, h]
    · simp [consumeFirst, countOpt, hx, ih]

/-- Each Green or Yellow mark the yellow pass emits for a letter is backed
either by a green consumed in pass 1 or by an unconsumed target slot. -/
theorem yellows_bound (ch : Char) (l : List (Char × Char)) :
    ∀ tc : List (Option Char),
      gyCount ch (yellowsPass l tc) (l.map Prod.snd) ≤ gExact ch l + countOpt ch tc := by
  induction l with
  | nil => intro tc; simp [yellowsPass, gyCount, gExact]
  | cons p rest ih =>
    intro tc
    by_cases hG : p.1 = 'G'
    · have h1 := ih tc
      simp only [yellowsPass, if_pos hG, List.map_cons, gyCount, gExact]
      by_cases hch : p.2 = ch <;> simp [hG, hch] <;> omega
    · by_cases hmem : some p.2 ∈ tc
      · simp only [yellowsPass, if_neg hG, if_pos hmem, List.map_cons, gyCount, gExact]
        by_cases hch : p.2 = ch
        · have h1 := ih (consumeFirst ch tc)
          have h2 := countOpt_consumeFirst_self ch tc (hch ▸ hmem)
          simp [hG, hch]
          omega
        · have h1 := ih (consumeFirst p.2 tc)
          have h2 := countOpt_consumeFirst_ne ch p.2 tc hch
          simp [hG, hch]
          omega
      · have h1 := ih tc
        simp only [yellowsPass, if_neg hG, if_neg hmem, List.map_cons, gyCount, gExact]
        by_cases hch : p.2 = ch <;> simp [hG, hch] <;> omega

/-- The greens of pass 1 plus the unconsumed slots left for pass 2 account
for every occurrence of a letter in the target. -/
theorem greens_plus_opt (ch : Char) (zp : List (Char × Char)) :
    gExact ch (yellowInput zp) + countOpt ch (greensTargetChars zp) =
      (zp.map Prod.snd).count ch := by
  induction zp with
  | nil => rfl
  | cons p rest ih =>
    rw [yellowInput_cons, greensTargetChars_cons, List.map_cons, List.count_cons]
    by_cases hpp : p.1 = p.2
    · rw [if_pos hpp, if_pos hpp, ← hpp]
      by_cases hch : p.1 = ch <;> simp [gExact, countOpt, hch, beq_iff_eq] <;> omega
    · rw [if_neg hpp, if_neg hpp]
      by_cases hch : p.2 = ch <;> simp [gExact, countOpt, hch, beq_iff_eq] <;> omega

/-- The guess letters are the second components of the yellow-pass input. -/
theorem yellowInput_map_snd (zp : List (Char × Char)) :
    (yellowInput zp).map Prod.snd = zp.map Prod.fst := by
  simp [yellowInput, List.map_map, Function.comp]

/-- C1: in any computed feedback, the Green and Yellow marks carried by
the positions of the guess holding a given letter never exceed that
letter's number of occurrences in the target. -/
theorem c1_no_duplicate_overcount (g t fb : String) (ch : Char)
    (h : compute_wordle_feedback g t = some fb) :
    gyCount ch fb.data (normalize_word g).data ≤
      ((normalize_word t).data).count ch := by
  obtain ⟨hg, ht⟩ := compute_valid_of_some g t fb h
  unfold compute_wordle_feedback at h
  simp only [hg, ht, Bool.and_self, if_true, Option.some.injEq] at h
  have hlg := valid_length _ hg
  have hlt := valid_length _ ht
  subst h
  show gyCount ch
      (yellowsPass
        ((greensFeedback ((normalize_word g).data.zip (normalize_word t).data)).zip
          (normalize_word g).data)
        (greensTargetChars ((normalize_word g).data.zip (normalize_word t).data)))
      (normalize_word g).data ≤ ((normalize_word t).data).count ch
  rw [greens_zip_eq _ _ (by omega)]
  have hfst : ((normalize_word g).data.zip (normalize_word t).data).map Prod.fst =
      (normalize_word g).data :=
    List.map_fst_zip _ _ (by omega)
  have hsnd : ((normalize_word g).data.zip (normalize_word t).data).map Prod.snd =
      (normalize_word t).data :=
    List.map_snd_zip _ _ (by omega)
  have hb := yellows_bound ch
    (yellowInput ((normalize_word g).data.zip (normalize_word t).data))
    (greensTargetChars ((normalize_word g).data.zip (normalize_word t).data))
  rw [yellowInput_map_snd, hfst] at hb
  have hc := greens_plus_opt ch ((normalize_word g).data.zip (normalize_word t).data)
  rw [hsnd] at hc
  omega

theorem c1_no_duplicate_overcount_witness :
    gyCount 'l' "BGYBG".data (normalize_word "llama").data ≤
      ((normalize_word "aloha").data).count 'l' :=
  c1_no_duplicate_overcount "llama" "aloha" "BGYBG" 'l' (by decide)

/-- Characters below the surrogate range survive the `Char.ofNat`
round-trip. -/
theorem toNat_ofNat_lt (n : Nat) (h : n < 55296) : (Char.ofNat n).toNat = n := by
  unfold Char.ofNat
  rw [dif_pos (Or.inl h)]
  rfl

theorem char_toNat_inj (a b : Char) (h : a.toNat = b.toNat) : a = b := by
  have ha := Char.ofNat_toNat a
  have hb := Char.ofNat_toNat b
  rw [← ha, ← hb, h]

/-- Code-point description of `pyLower`. -/
theorem pyLower_toNat (c : Char) :
    (pyLower c).toNat =
      if (65 ≤ c.toNat ∧ c.toNat ≤ 90) ∨
          (192 ≤ c.toNat ∧ c.toNat ≤ 222 ∧ c.toNat ≠ 215)
      then c.toNat + 32 else c.toNat := by
  unfold pyLower
  by_cases h1 : 65 ≤ c.toNat ∧ c.toNat ≤ 90
  · rw [if_pos h1, toNat_ofNat_lt _ (by omega), if_pos (Or.inl h1)]
  · by_cases h2 : 192 ≤ c.toNat ∧ c.toNat ≤ 222 ∧ c.toNat ≠ 215
    · rw [if_neg h1, if_pos h2, toNat_ofNat_lt _ (by omega), if_pos (Or.inr h2)]
    · rw [if_neg h1, if_neg h2, if_neg (by tauto)]

theorem pyLower_idem (c : Char) : pyLower (pyLower c) = pyLower c := by
  apply char_toNat_inj
  rw [pyLower_toNat (pyLower c), pyLower_toNat c]
  by_cases h : (65 ≤ c.toNat ∧ c.toNat ≤ 90) ∨
      (192 ≤ c.toNat ∧ c.toNat ≤ 222 ∧ c.toNat ≠ 215)
  · rw [if_pos h, if_neg (by omega)]
  · rw [if_neg h, if_neg h]

theorem isPySpace_iff (c : Char) :
    isPySpace c = true ↔
      (c.toNat = 32 ∨ c.toNat = 9 ∨ c.toNat = 10 ∨ c.toNat = 13 ∨
        c.toNat = 11 ∨ c.toNat = 12) := by
  simp [isPySpace, Bool.or_eq_true, beq_iff_eq]
  tauto

/-- Lowercasing does not create or destroy whitespace. -/
theorem isPySpace_pyLower (c : Char) : isPySpace (pyLower c) = isPySpace c := by
  rw [Bool.eq_iff_iff, isPySpace_iff, isPySpace_iff, pyLower_toNat]
  by_cases h : (65 ≤ c.toNat ∧ c.toNat ≤ 90) ∨
      (192 ≤ c.toNat ∧ c.toNat ≤ 222 ∧ c.toNat ≠ 215)
  · rw [if_pos h]
    omega
  · rw [if_neg h]

/-- The head surviving `dropWhile` fails the predicate. -/
theorem head_dropWhile_false (p : Char → Bool) (l : List Char) (c : Char)
    (h : (l.dropWhile p).head? = some c) : p c = false := by
  induction l with
  | nil => cases h
  | cons a xs ih =>
    rw [List.dropWhile_cons] at h
    by_cases hpa : p a = true
    · rw [if_pos hpa] at h
      exact ih h
    · rw [if_neg hpa] at h
      rw [List.head?_cons, Option.some.injEq] at h
      subst h
      rw [Bool.not_eq_true] at hpa
      exact hpa

/-- `dropWhile` only removes a prefix, so a non-empty result keeps the
last element. -/
theorem getLast_dropWhile_ne_nil (p : Char → Bool) (l : List Char)
    (h : l.dropWhile p ≠ []) : (l.dropWhile p).getLast? = l.getLast? := by
  induction l with
  | nil => exact absurd List.dropWhile_nil h
  | cons a xs ih =>
    rw [List.dropWhile_cons] at h ⊢
    by_cases hpa : p a = true
    · rw [if_pos hpa] at h ⊢
      have hxs : xs ≠ [] := by
        intro e
        subst e
        exact h List.dropWhile_nil
      rw [ih h]
      cases xs with
      | nil => exact absurd rfl hxs
      | cons b bs => rw [List.getLast?_cons_cons]
    · rw [if_neg hpa]

theorem dropWhile_dropWhile (p : Char → Bool) (l : List Char) :
    (l.dropWhile p).dropWhile p = l.dropWhile p := by
  cases hd : l.dropWhile p with
  | nil => rfl
  | cons c cs =>
    have hc : p c = false := head_dropWhile_false p l c (by rw [hd]; rfl)
    rw [List.dropWhile_cons, if_neg (by rw [hc]; exact Bool.false_ne_true)]

theorem pyStrip_idem (l : List Char) : pyStrip (pyStrip l) = pyStrip l := by
  have hA : List.dropWhile isPySpace (pyStrip l) = pyStrip l := by
    cases hD : pyStrip l with
    | nil => rfl
    | cons c cs =>
      have hc : isPySpace c = false := by
        have hh : (pyStrip l).head? = some c := by rw [hD]; rfl
        unfold pyStrip at hh
        rw [List.head?_reverse] at hh
        have hne : List.dropWhile isPySpace (l.dropWhile isPySpace).reverse ≠ [] := by
          intro e
          unfold pyStrip at hD
          rw [e] at hD
          cases hD
        rw [getLast_dropWhile_ne_nil _ _ hne, List.getLast?_reverse] at hh
        exact head_dropWhile_false _ _ _ hh
      rw [List.dropWhile_cons, if_neg (by rw [hc]; exact Bool.false_ne_true)]
  show (((pyStrip l).dropWhile isPySpace).reverse.dropWhile isPySpace).reverse = pyStrip l
  rw [hA]
  unfold pyStrip
  rw [List.reverse_reverse, dropWhile_dropWhile]

/-- Stripping commutes with lowercasing. -/
theorem pyStrip_map_pyLower (l : List Char) :
    pyStrip (l.map pyLower) = (pyStrip l).map pyLower := by
  have hcomp : (isPySpace ∘ pyLower) = isPySpace := funext (fun c => isPySpace_pyLower c)
  unfold pyStrip
  rw [List.dropWhile_map, hcomp, ← List.map_reverse, List.dropWhile_map, hcomp,
    ← List.map_reverse]

/-- Normalization is idempotent: its image is exactly the already
trimmed-and-lowercased strings. -/
theorem normalize_word_idem (s : String) :
    normalize_word (normalize_word s) = normalize_word s := by
  unfold normalize_word
  refine congrArg String.mk ?_
  show (pyStrip ((pyStrip s.data).map pyLower)).map pyLower =
    (pyStrip s.data).map pyLower
  rw [pyStrip_map_pyLower, pyStrip_idem, List.map_map]
  rw [show (pyLower ∘ pyLower) = pyLower from funext pyLower_idem]

/-- Shape of a successful parse: the returned guess is valid and is the
normalization of the stringified guess field. -/
theorem parse_ok_shape (decode : String → Except Unit PyJson) (content : String)
    (g : String) (h : parse_guess_from_json decode content = (true, g)) :
    is_valid_five_letter_word g = true ∧ ∃ v, g = normalize_word (pyStr v) := by
  simp only [parse_guess_from_json] at h
  split at h
  · simp at h
  · split at h
    · simp at h
    · rename_i data v hv
      split at h
      · rename_i hval
        simp only [Prod.mk.injEq, true_and] at h
        subst h
        exact ⟨hval, v, rfl⟩
      · simp at h

/-- C10: `parse_guess_from_json` is total (both exception sources map to
an error pair); a successful parse returns a guess that is a valid
five-letter word and is a fixed point of normalization; and a reply whose
guess field is an upper-case or whitespace-padded version of a valid word
is accepted and returned in normalized form. -/
theorem c10_parse_total_normalized (decode : String → Except Unit PyJson)
    (content : String) :
    ((parse_guess_from_json decode content).1 = true →
        is_valid_five_letter_word (parse_guess_from_json decode content).2 = true ∧
          normalize_word ((parse_guess_from_json decode content).2) =
            (parse_guess_from_json decode content).2) ∧
      ∀ v kvs, decode content = Except.ok (PyJson.obj kvs) →
        kvs.lookup "guess" = some (PyJson.str v) →
        is_valid_five_letter_word (normalize_word v) = true →
        parse_guess_from_json decode content = (true, normalize_word v) := by
  constructor
  · intro hok
    have hpair : parse_guess_from_json decode content =
        (true, (parse_guess_from_json decode content).2) := by rw [← hok]
    obtain ⟨hval, v, hg⟩ := parse_ok_shape decode content _ hpair
    refine ⟨hval, ?_⟩
    rw [hg, normalize_word_idem]
  · intro v kvs hd hlook hval
    simp only [parse_guess_from_json, hd, pyGetGuess, hlook, pyStr, hval, if_true]

theorem c10_parse_total_normalized_witness :
    parse_guess_from_json decodeSpacedHello "reply" = (true, "hello") := by
  have h := (c10_parse_total_normalized decodeSpacedHello "reply").2 " HELLO "
    [("guess", PyJson.str " HELLO ")] rfl rfl (by decide)
  rw [h]
  decide

